import Mathlib

/-!
Verification of the FTIR baseline-correction core (ftir-tools).

Shallow embedding of the numeric core of the `ftir-tools` repository:

* `modules/data_processing.py` — min-max normalization (`preprocess_data`);
* `modules/baseline.py` — ALS solver input validation, the asymmetric
  weight update, and the Savitzky-Golay window-length selection;
* `modules/file_converter.py` — JWS binary decoder x/y reconstruction;
* `main.py` — anchor adjustment engine (`_apply_anchor_adjustments`),
  anchor deletion re-indexing (`remove_single_anchor`), baseline
  persistence (`save_baseline`).

Python floats are modelled as exact numbers: rationals (`ℚ`) where the
code only does field arithmetic and comparisons, reals (`ℝ`) where the
transcendental `exp` is involved.  Division by zero follows the Lean
field convention `q / 0 = 0` (IEEE would give `nan`/`inf`); wherever a
result hinges on a division by zero this is called out at the theorem.
-/

namespace FTIR

/-- Model of `np.min` on a nonempty array; `0` is a junk value for the
empty list (numpy raises there, and all claims are about nonempty data). -/
def listMin : List ℚ → ℚ
  | [] => 0
  | v :: vs => vs.foldl min v

/-- Model of `np.max` on a nonempty array; `0` is a junk value for the
empty list. -/
def listMax : List ℚ → ℚ
  | [] => 0
  | v :: vs => vs.foldl max v

/-- Embedding of `preprocess_data` from `modules/data_processing.py` (lines 12-33),
restricted to the `absorbance` column it transforms.  With
`normalize=True` it computes `(absorbance - min) / (max - min)`
elementwise — the source has no guard for `max == min`; with
`normalize=False` it returns the data unchanged. -/
def preprocess_data (absorbance : List ℚ) (normalize : Bool) : List ℚ :=
  if normalize then
    absorbance.map (fun v =>
      (v - listMin absorbance) / (listMax absorbance - listMin absorbance))
  else
    absorbance

/-- The Savitzky-Golay window length chosen by `baseline_correction` and
`get_baseline_with_raw` in `modules/baseline.py` (lines 82-85 / 138-140):
`window_length = min(51, len(a) // 10 if len(a) > 50 else 5)`, then
incremented by one if even. -/
def windowLength (n : ℕ) : ℕ :=
  let w := min 51 (if n > 50 then n / 10 else 5)
  if w % 2 = 0 then w + 1 else w

/-- The window-length formula as the spec words it: `min(51, max(5, n/10))`
rounded up to the next odd integer. -/
def windowLengthSpec (n : ℕ) : ℕ :=
  let w := min 51 (max 5 (n / 10))
  if w % 2 = 0 then w + 1 else w

/-- The Python builtin `round` to an integer: round half to even
(bankers rounding), on exact rationals. -/
def roundHalfEven (q : ℚ) : ℤ :=
  let f := ⌊q⌋
  let r := q - f
  if r < 1/2 then f
  else if r > 1/2 then f + 1
  else if f % 2 = 0 then f else f + 1

/-- Model of `round(v, 6)` from the decoder: round to 6 decimal places. -/
def round6 (q : ℚ) : ℚ := (roundHalfEven (q * 1000000) : ℚ) / 1000000

/-- Model of `round(v, 8)` from the decoder: round to 8 decimal places. -/
def round8 (q : ℚ) : ℚ := (roundHalfEven (q * 100000000) : ℚ) / 100000000

/-- The JWS header fields that drive the decode loop
(`modules/file_converter.py`, class `JwsHeader`). -/
structure JwsHeader where
  channel_number : ℕ
  point_number : ℕ
  x_for_first_point : ℚ
  x_for_last_point : ℚ
  x_increment : ℚ

/-- The channel-major split of the flat `Y-Data` float array
(`convert_jws_to_ylk_direct`, the `chunks` list comprehension):
contiguous chunks of `point_number` samples each. -/
def chunksOf (pn : ℕ) (values : List ℚ) : List (List ℚ) :=
  (List.range ((values.length + pn - 1) / pn)).map
    (fun k => (values.drop (k * pn)).take pn)

/-- The decoded x-axis (`convert_jws_to_ylk_direct`, lines 117-121):
`x[i] = round(x_first + i * x_increment, 6)` for `i < point_number` —
reconstructed arithmetically from the header, never from stored
samples. -/
def decodeX (h : JwsHeader) : List ℚ :=
  (List.range h.point_number).map
    (fun (i : ℕ) => round6 (h.x_for_first_point + (i : ℚ) * h.x_increment))

/-- The decoded y values (`convert_jws_to_ylk_direct`, lines 117-122):
`y[i] = round(chunks[0][i], 8)` (or `0` when there are no chunks). -/
def decodeY (h : JwsHeader) (values : List ℚ) : List ℚ :=
  let chunks := chunksOf h.point_number values
  (List.range h.point_number).map
    (fun i => round8 (((chunks.headD []).getD i 0)))

/-- A Python float as the decoder and solver may see it: a finite
rational, or one of the IEEE non-finite values. -/
inductive FVal where
  | fin (q : ℚ)
  | nan
  | posInf
  | negInf
deriving DecidableEq

/-- Model of `np.isfinite` on one value. -/
def FVal.isFinite : FVal → Bool
  | .fin _ => true
  | _ => false

/-- The input-validation prefix of `baseline_als`
(`modules/baseline.py`, lines 28-42), in source order: length `< 3`,
non-finite values, `lam <= 0`, `p` outside `(0, 1)` each raise a
`ValueError`; otherwise the solve proceeds with the inputs untouched. -/
def alsValidate (y : List FVal) (lam p : ℚ) : Except String Unit :=
  if y.length < 3 then
    .error "Input data must have at least 3 points for ALS baseline correction"
  else if ¬ (y.all FVal.isFinite) then
    .error "Input data contains non-finite values (NaN or infinity)"
  else if lam ≤ 0 then
    .error "Lambda parameter must be positive"
  else if ¬ (0 < p ∧ p < 1) then
    .error "Asymmetry parameter p must be between 0 and 1"
  else
    .ok ()

/-- The per-sample weight update in the `baseline_als` iteration
(`modules/baseline.py`, line 55): `w = p * (y > z) + (1 - p) * (y < z)`,
with the numpy booleans as 0/1. -/
def alsWeight (p y z : ℚ) : ℚ :=
  p * (if y > z then 1 else 0) + (1 - p) * (if y < z then 1 else 0)

/-- Embedding of `remove_single_anchor` from `main.py` (lines 298-308): on a valid
index, `pop` the anchor and re-index the selected-anchor pointer (clear
it when it was the removed index, decrement it when it was after it);
out-of-range indices are a no-op. -/
def remove_single_anchor (anchors : List (ℚ × ℚ)) (selected : Option ℕ)
    (idx : ℕ) : List (ℚ × ℚ) × Option ℕ :=
  if idx < anchors.length then
    let anchors' := anchors.eraseIdx idx
    let selected' :=
      match selected with
      | none => none
      | some s => if s = idx then none else if s > idx then some (s - 1) else some s
    (anchors', selected')
  else
    (anchors, selected)

/-- Model of `np.min` over a nonempty real array (`main.py`, line 387). -/
noncomputable def listMinR : List ℝ → ℝ
  | [] => 0
  | v :: vs => vs.foldl min v

/-- Model of `np.max` over a nonempty real array (`main.py`, line 387). -/
noncomputable def listMaxR : List ℝ → ℝ
  | [] => 0
  | v :: vs => vs.foldl max v

/-- Model of `np.argmin(np.abs(x_data - anchor_x))`: the first index of `x`
minimizing `|x i - ax|` (numpy returns the first occurrence of the
minimum; ties go to the earlier index). -/
noncomputable def argminAbs (ax : ℝ) : List ℝ → ℕ
  | [] => 0
  | [_] => 0
  | a :: b :: t =>
    let j := argminAbs ax (b :: t)
    if |(b :: t).getD j 0 - ax| < |a - ax| then j + 1 else 0

/-- One iteration of the anchor loop in `_apply_anchor_adjustments`
(`main.py`, lines 390-405): find the sample nearest the anchor x, take
the offset `ay - base[closest]` against the pristine input baseline
`base`, and add the Gaussian bump
`offset * exp(-0.5 * (|x i - x[closest]| / sigma)^2)` to the
accumulating array elementwise. -/
noncomputable def anchorStep (x base : List ℝ) (sigma : ℝ)
    (adj : List ℝ) (a : ℝ × ℝ) : List ℝ :=
  let c := argminAbs a.1 x
  let cx := x.getD c 0
  let amt := a.2 - base.getD c 0
  List.zipWith (fun v xi => v + amt * Real.exp (-(1/2) * ((|xi - cx|) / sigma) ^ 2)) adj x

/-- Embedding of `_apply_anchor_adjustments` from `main.py` (lines 375-407): return
the baseline unchanged when there are no anchors; otherwise set
`sigma = (max x - min x) / 50` and fold the Gaussian bumps of all
anchors, in order, over a copy of the baseline. -/
noncomputable def applyAnchorAdjustments (x base : List ℝ)
    (anchors : List (ℝ × ℝ)) : List ℝ :=
  if anchors.isEmpty then base
  else
    let sigma := (listMaxR x - listMinR x) / 50
    anchors.foldl (anchorStep x base sigma) base

/-- The fields of the persisted YLK record that `save_baseline` touches
(`main.py`, lines 594-657): the raw data arrays and the stored baseline
arrays. -/
structure SpectrumRecord where
  rawX : List ℝ
  rawY : List ℝ
  baselineX : List ℝ
  baselineY : List ℝ

/-- Embedding of `save_baseline` from `main.py` (lines 594-657), on the record
fields it mutates.  The guard clauses reject empty data, mismatched
lengths and fewer than 10 points; otherwise the ALS baseline of the raw
data is computed (`get_baseline_with_raw` — its sparse linear solve is
not embedded, so the baseline it returns on `(rawX, rawY)` is passed in
as the function argument `alsB`), the anchor adjustments are applied,
and the baseline of the record is stored as
`{x: x_data.tolist(), y: baseline_values.tolist()}` — the x-array
written is the raw x-array itself. -/
noncomputable def save_baseline (alsB : List ℝ → List ℝ → List ℝ)
    (anchors : List (ℝ × ℝ)) (r : SpectrumRecord) : Option SpectrumRecord :=
  if r.rawX.length = 0 ∨ r.rawY.length = 0 then none
  else if r.rawX.length ≠ r.rawY.length then none
  else if r.rawX.length < 10 then none
  else
    let als := alsB r.rawX r.rawY
    let values := applyAnchorAdjustments r.rawX als anchors
    some { r with baselineX := r.rawX, baselineY := values }

/-- A ten-sample grid used to exercise `save_baseline` on concrete
data. -/
def xTen : List ℝ := [0, 1, 2, 3, 4, 5, 6, 7, 8, 9]

/-! Section Helper lemmas -/

theorem foldl_min_le_init (a : ℚ) (l : List ℚ) : l.foldl min a ≤ a := by
  induction l generalizing a with
  | nil => exact le_refl a
  | cons b t ih => exact le_trans (ih (min a b)) (min_le_left a b)

theorem foldl_min_le_mem (a : ℚ) (l : List ℚ) : ∀ v ∈ l, l.foldl min a ≤ v := by
  induction l generalizing a with
  | nil => intro v hv; cases hv
  | cons b t ih =>
    intro v hv
    rcases List.mem_cons.1 hv with rfl | hv
    · exact le_trans (foldl_min_le_init (min a v) t) (min_le_right a v)
    · exact ih (min a b) v hv

theorem init_le_foldl_max (a : ℚ) (l : List ℚ) : a ≤ l.foldl max a := by
  induction l generalizing a with
  | nil => exact le_refl a
  | cons b t ih => exact le_trans (le_max_left a b) (ih (max a b))

theorem mem_le_foldl_max (a : ℚ) (l : List ℚ) : ∀ v ∈ l, v ≤ l.foldl max a := by
  induction l generalizing a with
  | nil => intro v hv; cases hv
  | cons b t ih =>
    intro v hv
    rcases List.mem_cons.1 hv with rfl | hv
    · exact le_trans (le_max_right a v) (init_le_foldl_max (max a v) t)
    · exact ih (max a b) v hv

theorem listMin_le_mem (l : List ℚ) : ∀ v ∈ l, listMin l ≤ v := by
  cases l with
  | nil => intro v hv; cases hv
  | cons a t =>
    intro v hv
    rcases List.mem_cons.1 hv with rfl | hv
    · exact foldl_min_le_init v t
    · exact foldl_min_le_mem a t v hv

theorem mem_le_listMax (l : List ℚ) : ∀ v ∈ l, v ≤ listMax l := by
  cases l with
  | nil => intro v hv; cases hv
  | cons a t =>
    intro v hv
    rcases List.mem_cons.1 hv with rfl | hv
    · exact init_le_foldl_max v t
    · exact mem_le_foldl_max a t v hv

theorem listMin_lt_listMax_of_ne (l : List ℚ) (h : listMin l ≠ listMax l) :
    listMin l < listMax l := by
  cases l with
  | nil => simp [listMin, listMax] at h
  | cons a t =>
    rcases lt_or_ge (listMin (a :: t)) (listMax (a :: t)) with hlt | hge
    · exact hlt
    · exact absurd (le_antisymm
        (le_trans (listMin_le_mem (a :: t) a (List.mem_cons_self a t))
          (mem_le_listMax (a :: t) a (List.mem_cons_self a t))) hge) h

/-! Section C1 — min-max normalization -/

/-- C1 counterexample: on the flat signal `[5, 5]` (where `max == min`)
the code divides by zero with no guard, so the result is not the input:
each entry is `(5-5)/(5-5) = 0/0`, which is `0` under the exact-field
convention modelled here (and `nan` in the IEEE semantics of the code) — in
either semantics it differs from the raw value `5`. -/
theorem normalize_flat_counterexample :
    listMin [5, 5] = listMax [5, 5] ∧
      preprocess_data [5, 5] true ≠ [5, 5] := by
  constructor
  · rfl
  · intro h
    have := congrArg (fun l => l.getD 0 (0 : ℚ)) h
    simp [preprocess_data, listMin, listMax] at this

/-- C1 (amended): `preprocess_data` with `normalize=True` always returns
`(values - min) / (max - min)` elementwise, with no flat-signal guard;
for non-constant input (`min ≠ max`) every output value lies in
`[0, 1]`. -/
theorem normalize_nonconstant_bounds (l : List ℚ)
    (hne : listMin l ≠ listMax l) :
    preprocess_data l true =
      l.map (fun v => (v - listMin l) / (listMax l - listMin l)) ∧
    ∀ w ∈ preprocess_data l true, 0 ≤ w ∧ w ≤ 1 := by
  have hlt := listMin_lt_listMax_of_ne l hne
  refine ⟨by simp [preprocess_data], ?_⟩
  intro w hw
  simp only [preprocess_data, if_pos, List.mem_map] at hw
  obtain ⟨v, hv, rfl⟩ := hw
  have h1 : listMin l ≤ v := listMin_le_mem l v hv
  have h2 : v ≤ listMax l := mem_le_listMax l v hv
  constructor
  · exact div_nonneg (by linarith) (by linarith)
  · rw [div_le_one (by linarith)]
    linarith

/-- C1 amended-claim witness: on the non-constant input `[0, 2]`
normalization yields `[0, 1]`. -/
theorem normalize_nonconstant_witness : preprocess_data [0, 2] true = [0, 1] :=
  ((normalize_nonconstant_bounds [0, 2]
      (by norm_num [listMin, listMax, min_def, max_def])).1).trans
    (by norm_num [listMin, listMax, min_def, max_def])

/-! Section C4 — empty anchor list is the identity -/

/-- C4: `_apply_anchor_adjustments` with no anchors returns the
baseline unchanged (the source returns the fresh copy of `baseline`
untouched when `self.anchors` is empty). -/
theorem adjust_empty_anchors_id (x base : List ℝ) :
    applyAnchorAdjustments x base [] = base := rfl

/-! Section C6 — Savitzky-Golay window length -/

/-- C6: the window length the code computes for an `n`-sample input
equals `min(51, max(5, n/10))` rounded up to the next odd integer, as
the spec states; it is always odd and at least 5 (so the
`window_length >= 5` guard before `savgol_filter(..., polyorder=3)`
always passes). -/
theorem savgol_window_length_spec (n : ℕ) :
    windowLength n = windowLengthSpec n ∧
    windowLength n % 2 = 1 ∧ 5 ≤ windowLength n := by
  simp only [windowLength, windowLengthSpec]
  split_ifs <;> omega

/-! Section C5 — ALS input validation -/

/-- C5: `baseline_als` rejects exactly the invalid inputs: it returns an
error iff the input has fewer than 3 samples, contains a non-finite
value, `lam <= 0`, or `p` lies outside the open interval `(0,1)`; on
valid input the validation passes (returns `ok` — nothing is clamped,
the checks either raise or leave the inputs untouched). -/
theorem als_validate_spec (y : List FVal) (lam p : ℚ) :
    alsValidate y lam p = .ok () ↔
      3 ≤ y.length ∧ (∀ v ∈ y, v.isFinite = true) ∧
        0 < lam ∧ 0 < p ∧ p < 1 := by
  simp only [alsValidate]
  split_ifs with h1 h2 h3 h4 <;> simp_all [List.all_eq_true]

/-! Section C10 — ALS weight at exact equality -/

/-- C10: in the weight update `w = p*(y > z) + (1-p)*(y < z)`, a sample
with `y = z` gets weight `0` — and for `0 < p < 1` that weight is
neither `p` nor `1 - p`, so the sample is dropped from the next
weighted fit. -/
theorem als_weight_zero_at_equality (p y z : ℚ) (heq : y = z)
    (hp0 : 0 < p) (hp1 : p < 1) :
    alsWeight p y z = 0 ∧ alsWeight p y z ≠ p ∧ alsWeight p y z ≠ 1 - p := by
  subst heq
  have h0 : alsWeight p y y = 0 := by simp [alsWeight]
  refine ⟨h0, ?_, ?_⟩ <;> rw [h0] <;> intro hc <;> linarith

/-- C10 witness: at `p = 1/2` and `y = z = 3` the weight is `0`,
distinct from both `p` and `1 - p`. -/
theorem als_weight_zero_witness :
    alsWeight (1/2) 3 3 = 0 ∧
      alsWeight (1/2) 3 3 ≠ 1/2 ∧ alsWeight (1/2) 3 3 ≠ 1 - 1/2 :=
  als_weight_zero_at_equality (1/2) 3 3 rfl (by norm_num) (by norm_num)

/-! Section C9 — anchor deletion re-indexes the selection -/

/-- C9: removing the anchor at a valid index `k` erases exactly that
list entry and re-points the selection: cleared when it equalled `k`,
decremented when `k` preceded it, unchanged when it preceded `k`. -/
theorem remove_anchor_reindex (anchors : List (ℚ × ℚ)) (s k : ℕ)
    (hk : k < anchors.length) :
    (remove_single_anchor anchors (some s) k).1 = anchors.eraseIdx k ∧
    (s = k → (remove_single_anchor anchors (some s) k).2 = none) ∧
    (k < s → (remove_single_anchor anchors (some s) k).2 = some (s - 1)) ∧
    (s < k → (remove_single_anchor anchors (some s) k).2 = some s) := by
  simp only [remove_single_anchor, if_pos hk]
  refine ⟨trivial, ?_, ?_, ?_⟩ <;> intro h <;> split_ifs <;> simp_all <;> omega

/-- C9 witness: deleting index 0 of a three-anchor list while anchor 2
is selected leaves `[(1,1),(2,2)]` selected at index 1. -/
theorem remove_anchor_reindex_witness :
    (remove_single_anchor [(0, 0), (1, 1), (2, 2)] (some 2) 0).1 =
      List.eraseIdx [(0, 0), (1, 1), (2, 2)] 0 ∧
    ((2 : ℕ) = 0 →
      (remove_single_anchor [(0, 0), (1, 1), (2, 2)] (some 2) 0).2 = none) ∧
    ((0 : ℕ) < 2 →
      (remove_single_anchor [(0, 0), (1, 1), (2, 2)] (some 2) 0).2 = some (2 - 1)) ∧
    ((2 : ℕ) < 0 →
      (remove_single_anchor [(0, 0), (1, 1), (2, 2)] (some 2) 0).2 = some 2) :=
  remove_anchor_reindex [(0, 0), (1, 1), (2, 2)] 2 0 (by norm_num)

/-! Section C7 — decoder x/y reconstruction -/

theorem chunksOf_headD (pn : ℕ) (values : List ℚ) (hpn : 0 < pn)
    (hv : 0 < values.length) :
    (chunksOf pn values).headD [] = values.take pn := by
  unfold chunksOf
  obtain ⟨m, hm⟩ : ∃ m, (values.length + pn - 1) / pn = m + 1 := by
    have hpos : 0 < (values.length + pn - 1) / pn := Nat.div_pos (by omega) hpn
    exact ⟨(values.length + pn - 1) / pn - 1, by omega⟩
  rw [hm, List.range_succ_eq_map]
  simp

/-- C7: the decoder rebuilds the x-axis arithmetically from the header —
`x[i] = round6(x_first + i * x_increment)` for every `i < point_count` —
and takes `y[i]` as the channel-0 sample rounded to 8 decimals
(`y[i] = round8(values[i])`, the first `point_count` entries of the flat
sample stream being channel 0). -/
theorem decode_xy_formula (h : JwsHeader) (values : List ℚ) (i : ℕ)
    (hi : i < h.point_number)
    (hv : values.length = h.point_number * h.channel_number)
    (hc : 1 ≤ h.channel_number) :
    (decodeX h).getD i 0 = round6 (h.x_for_first_point + i * h.x_increment) ∧
    (decodeY h values).getD i 0 = round8 (values.getD i 0) := by
  have hpn : 0 < h.point_number := lt_of_le_of_lt (Nat.zero_le i) hi
  constructor
  · unfold decodeX
    rw [List.getD_eq_getElem _ _ (by simpa using hi), List.getElem_map,
      List.getElem_range]
  · unfold decodeY
    have hvpos : 0 < values.length := by
      rw [hv]; exact Nat.mul_pos hpn (by omega)
    simp only [chunksOf_headD h.point_number values hpn hvpos]
    rw [List.getD_eq_getElem _ _ (by simpa using hi), List.getElem_map,
      List.getElem_range]
    congr 1
    have hiv : i < values.length := by
      have : h.point_number ≤ values.length := by
        rw [hv]; exact Nat.le_mul_of_pos_right _ (by omega)
      omega
    have hit : i < (values.take h.point_number).length := by
      simp only [List.length_take]; omega
    rw [List.getD_eq_getElem _ _ hit, List.getD_eq_getElem _ _ hiv,
      List.getElem_take]

/-- C7 witness: the crafted container with `channel_count=1`,
`point_count=5`, `x_first=1000`, `x_increment=2` decodes to
`x = [1000, 1002, 1004, 1006, 1008]` exactly. -/
theorem decode_concrete_witness :
    (decodeX ⟨1, 5, 1000, 1008, 2⟩).getD 0 0 =
      round6 ((1000 : ℚ) + ((0 : ℕ) : ℚ) * 2) ∧
    decodeX ⟨1, 5, 1000, 1008, 2⟩ = [1000, 1002, 1004, 1006, 1008] :=
  ⟨(decode_xy_formula ⟨1, 5, 1000, 1008, 2⟩ [0, 0, 0, 0, 0] 0 (by norm_num)
      (by norm_num) (by norm_num)).1,
    by norm_num [decodeX, round6, roundHalfEven, List.range_succ]⟩

/-! Section C2 — anchor order invariance -/

theorem zipWith_zipWith_same {α β : Type} (f g : β → α → β) :
    ∀ (l : List β) (x : List α),
      List.zipWith f (List.zipWith g l x) x =
        List.zipWith (fun v xi => f (g v xi) xi) l x
  | [], _ => by simp
  | _ :: _, [] => by simp
  | b :: l, a :: x => by
    simp only [List.zipWith_cons_cons]
    rw [zipWith_zipWith_same f g l x]

theorem anchorStep_rightComm (x base : List ℝ) (s : ℝ) (adj : List ℝ)
    (a b : ℝ × ℝ) :
    anchorStep x base s (anchorStep x base s adj a) b =
      anchorStep x base s (anchorStep x base s adj b) a := by
  unfold anchorStep
  rw [zipWith_zipWith_same, zipWith_zipWith_same]
  congr 1
  funext v xi
  ring

theorem foldl_anchorStep_perm (x base : List ℝ) (s : ℝ)
    {l₁ l₂ : List (ℝ × ℝ)} (hp : l₁.Perm l₂) :
    ∀ adj, l₁.foldl (anchorStep x base s) adj =
      l₂.foldl (anchorStep x base s) adj := by
  induction hp with
  | nil => intro adj; rfl
  | cons a _ ih => intro adj; simp only [List.foldl_cons]; exact ih _
  | swap a b l => intro adj; simp only [List.foldl_cons]; rw [anchorStep_rightComm]
  | trans h₁ h₂ ih₁ ih₂ => intro adj; exact (ih₁ adj).trans (ih₂ adj)

/-- C2: `_apply_anchor_adjustments` is invariant to anchor order — each
offset of each anchor is read from the pristine input baseline and the
Gaussian bumps add onto the accumulating array, so any permutation of
the anchor list produces the identical adjusted baseline. -/
theorem adjust_perm_invariant (x base : List ℝ) (l₁ l₂ : List (ℝ × ℝ))
    (hp : l₁.Perm l₂) :
    applyAnchorAdjustments x base l₁ = applyAnchorAdjustments x base l₂ := by
  unfold applyAnchorAdjustments
  cases l₁ with
  | nil => rw [hp.symm.eq_nil]
  | cons a t =>
    cases l₂ with
    | nil => exact absurd hp.eq_nil (by simp)
    | cons b u =>
      simp only [List.isEmpty_cons, Bool.false_eq_true, if_false]
      exact foldl_anchorStep_perm x base _ hp base

/-- C2 witness: swapping two concrete anchors leaves the adjusted
baseline unchanged. -/
theorem adjust_perm_witness :
    applyAnchorAdjustments [0, 1] [0, 0] [((0 : ℝ), (1 : ℝ)), (1, 2)] =
      applyAnchorAdjustments [0, 1] [0, 0] [(1, 2), (0, 1)] :=
  adjust_perm_invariant [0, 1] [0, 0] _ _
    (List.Perm.swap ((1 : ℝ), (2 : ℝ)) ((0 : ℝ), (1 : ℝ)) [])

/-! Section C3 — single-anchor exactness at the nearest sample -/

theorem argminAbs_lt_length (ax : ℝ) :
    ∀ (l : List ℝ), l ≠ [] → argminAbs ax l < l.length
  | [], h => absurd rfl h
  | [_], _ => by simp [argminAbs]
  | a :: b :: t, _ => by
    have ih := argminAbs_lt_length ax (b :: t) (by simp)
    rw [show argminAbs ax (a :: b :: t) =
        (if |(b :: t).getD (argminAbs ax (b :: t)) 0 - ax| < |a - ax| then
          argminAbs ax (b :: t) + 1 else 0) from rfl]
    simp only [List.length_cons] at ih ⊢
    split_ifs <;> omega

/-- The function `argminAbs` really is `np.argmin(np.abs(x - ax))`: the element it
picks is at least as close to `ax` as every element of the list. -/
theorem argminAbs_le (ax : ℝ) :
    ∀ (l : List ℝ) (j : ℕ), j < l.length →
      |l.getD (argminAbs ax l) 0 - ax| ≤ |l.getD j 0 - ax|
  | [], j, hj => by simp at hj
  | [a], j, hj => by
    have hj0 : j = 0 := by simpa using hj
    subst hj0
    simp [argminAbs]
  | a :: b :: t, j, hj => by
    have ih := fun (m : ℕ) (hm : m < (b :: t).length) =>
      argminAbs_le ax (b :: t) m hm
    rw [show argminAbs ax (a :: b :: t) =
        (if |(b :: t).getD (argminAbs ax (b :: t)) 0 - ax| < |a - ax| then
          argminAbs ax (b :: t) + 1 else 0) from rfl]
    split_ifs with hlt
    · rw [List.getD_cons_succ]
      cases j with
      | zero => rw [List.getD_cons_zero]; exact le_of_lt hlt
      | succ m =>
        rw [List.getD_cons_succ]
        exact ih m (by simpa using hj)
    · rw [List.getD_cons_zero]
      cases j with
      | zero => rw [List.getD_cons_zero]
      | succ m =>
        rw [List.getD_cons_succ]
        exact le_trans (not_lt.mp hlt) (ih m (by simpa using hj))

theorem getD_zipWith_of_lt (f : ℝ → ℝ → ℝ) (l₁ l₂ : List ℝ) (i : ℕ)
    (h₁ : i < l₁.length) (h₂ : i < l₂.length) :
    (List.zipWith f l₁ l₂).getD i 0 = f (l₁.getD i 0) (l₂.getD i 0) := by
  rw [List.getD_eq_getElem _ _ (by simp only [List.length_zipWith]; omega),
    List.getD_eq_getElem _ _ h₁, List.getD_eq_getElem _ _ h₂,
    List.getElem_zipWith]

/-- C3: with a single anchor `(ax, ay)`, the adjusted baseline equals
`ay` exactly at the sample index the code selects — `argminAbs ax x`,
the first index minimizing `|x i - ax|` (that this index is the nearest
sample is `argminAbs_le`): the Gaussian weight at the centre sample is
`exp 0 = 1`, so `baseline[c] + (ay - baseline[c]) * 1 = ay`. -/
theorem adjust_single_anchor_exact (x base : List ℝ) (ax ay : ℝ)
    (hx : x ≠ []) (hlen : base.length = x.length) :
    (applyAnchorAdjustments x base [(ax, ay)]).getD (argminAbs ax x) 0 = ay := by
  have hc : argminAbs ax x < x.length := argminAbs_lt_length ax x hx
  have hcb : argminAbs ax x < base.length := by rw [hlen]; exact hc
  unfold applyAnchorAdjustments
  simp only [List.isEmpty_cons, Bool.false_eq_true, if_false,
    List.foldl_cons, List.foldl_nil]
  unfold anchorStep
  rw [getD_zipWith_of_lt _ base x _ hcb hc]
  simp only [sub_self, abs_zero, zero_div]
  norm_num [Real.exp_zero]

/-- C3 witness: pinning the flat baseline `[5,5,5]` over `x = [0,1,2]`
with the single anchor `(1, 10)` forces the adjusted baseline to `10`
at the nearest sample of the anchor. -/
theorem adjust_single_anchor_witness :
    (applyAnchorAdjustments [0, 1, 2] [5, 5, 5]
      [((1 : ℝ), (10 : ℝ))]).getD (argminAbs 1 [0, 1, 2]) 0 = 10 :=
  adjust_single_anchor_exact [0, 1, 2] [5, 5, 5] 1 10 (by simp) (by simp)

/-! Section C8 — stored baseline shares the raw x-grid -/

/-- C8: whenever `save_baseline` succeeds, the record it stores has
`baseline.x` identical to `raw_data.x` — the code writes
`{"x": x_data.tolist(), ...}` with `x_data` the raw x-array itself, so
the baseline is never stored on a different grid. -/
theorem save_baseline_same_grid (alsB : List ℝ → List ℝ → List ℝ)
    (anchors : List (ℝ × ℝ)) (r r' : SpectrumRecord)
    (hsave : save_baseline alsB anchors r = some r') :
    r'.baselineX = r'.rawX ∧ r'.rawX = r.rawX ∧
      r'.baselineX.length = r'.rawX.length := by
  unfold save_baseline at hsave
  split_ifs at hsave
  cases hsave
  exact ⟨rfl, rfl, rfl⟩

/-- C8 witness: saving a baseline on a concrete ten-point record stores
the raw x-grid as the baseline x-grid. -/
theorem save_baseline_same_grid_witness :
    ({ rawX := xTen, rawY := xTen, baselineX := xTen, baselineY := xTen } :
        SpectrumRecord).baselineX =
      ({ rawX := xTen, rawY := xTen, baselineX := xTen, baselineY := xTen } :
        SpectrumRecord).rawX ∧
    ({ rawX := xTen, rawY := xTen, baselineX := xTen, baselineY := xTen } :
        SpectrumRecord).rawX =
      ({ rawX := xTen, rawY := xTen, baselineX := [], baselineY := [] } :
        SpectrumRecord).rawX ∧
    ({ rawX := xTen, rawY := xTen, baselineX := xTen, baselineY := xTen } :
        SpectrumRecord).baselineX.length =
      ({ rawX := xTen, rawY := xTen, baselineX := xTen, baselineY := xTen } :
        SpectrumRecord).rawX.length :=
  save_baseline_same_grid (fun _ y => y) []
    { rawX := xTen, rawY := xTen, baselineX := [], baselineY := [] }
    { rawX := xTen, rawY := xTen, baselineX := xTen, baselineY := xTen }
    rfl

end FTIR
